import Mathlib

/-!
Verification development for the Beacon-PDF-Chatbot backend.

Shallow embedding of the chunking / retrieval / chat-assembly pipeline of
`backend/app/services/{pdf_service,rag_service,chat_service}.py`.

Strings are modelled as `List Char` (Python `str` is a sequence of code
points; `len`, slicing and iteration below match that view).  Python's
whitespace class `\s` and `str.strip()` are modelled over the ASCII
whitespace characters, which is the relevant alphabet for this code.
External capabilities (the tiktoken tokenizer, the Weaviate vector store,
the OpenAI chat completion) are modelled as explicit function parameters,
exactly at the boundaries the source code calls them.
-/

namespace Beacon

/-- Python `\s` / `str.isspace` on the ASCII range: space, tab, newline,
carriage return, vertical tab, form feed. -/
def pySpace (c : Char) : Bool :=
  c = ' ' || c = '\t' || c = '\n' || c = '\r' || c = '\x0b' || c = '\x0c'

/-- Python `\d` on the ASCII range. -/
def pyDigit (c : Char) : Bool :=
  '0' ≤ c && c ≤ '9'

/-- Drop trailing characters satisfying `pySpace` (the right half of
Python `str.strip()`). -/
def dropTrailingWs (l : List Char) : List Char :=
  (l.reverse.dropWhile pySpace).reverse

/-- Python `str.strip()`: remove leading and trailing whitespace. -/
def pyStrip (l : List Char) : List Char :=
  dropTrailingWs (l.dropWhile pySpace)

/-- Scanner for `re.sub(r'\s+', ' ', text)`: `inRun` records whether the
previous character belonged to a whitespace run whose single `' '` has
already been emitted (so further run characters are dropped). -/
def collapseWsGo : List Char → Bool → List Char
  | [], _ => []
  | c :: cs, inRun =>
    if pySpace c then
      if inRun then collapseWsGo cs true else ' ' :: collapseWsGo cs true
    else c :: collapseWsGo cs false

/-- `re.sub(r'\s+', ' ', text)`: replace every maximal run of whitespace
characters by a single space. -/
def collapseWs (l : List Char) : List Char := collapseWsGo l false

/-- Whether a whole string matches `\s*\d+\s*`. -/
def matchesStandaloneNumber (l : List Char) : Bool :=
  let t := l.dropWhile pySpace
  let d := t.takeWhile pyDigit
  let r := t.dropWhile pyDigit
  !d.isEmpty && r.all pySpace

/-- `re.sub(r'^\s*\d+\s*$', '', text, flags=re.MULTILINE)` as it behaves
inside `_clean_text`: its input comes out of the `\s+ → ' '` collapse and
therefore contains no newline, so the MULTILINE anchors `^`/`$` can only
match at the very start and very end of the whole text.  The only possible
match is thus the entire string, when it is of the form `\s*\d+\s*`. -/
def removeStandaloneNumbers (l : List Char) : List Char :=
  if matchesStandaloneNumber l then [] else l

/-- `text.replace('|', 'I')` (applied characterwise). -/
def fixPipe (c : Char) : Char := if c = '|' then 'I' else c

/-- `text.replace('0', 'O')` (applied characterwise). -/
def fixZero (c : Char) : Char := if c = '0' then 'O' else c

/-- `PDFService._clean_text`.  The final
`re.sub(r'\n\s*\n\s*\n+', '\n\n', text)` is omitted because its pattern
requires newline characters and the first step has already replaced every
whitespace character (newlines included) by a single space, so on this
pipeline that substitution never fires. -/
def cleanText (text : List Char) : List Char :=
  let t1 := collapseWs text
  let t2 := removeStandaloneNumbers t1
  let t3 := (t2.map fixPipe).map fixZero
  pyStrip t3

/-- Sentence-terminal punctuation of the lookbehind `(?<=[.!?])`. -/
def isSentEnd (c : Char) : Bool := c = '.' || c = '!' || c = '?'

/-- Whether the character preceding the cursor (the head of the reversed
accumulator) is sentence-terminal punctuation. -/
def prevIsSentEnd : List Char → Bool
  | p :: _ => isSentEnd p
  | [] => false

/-- Scanner for `re.split(r'(?<=[.!?])\s+', text)`: a split point is a
maximal run of whitespace whose first character is immediately preceded
(in the original string) by `.`, `!` or `?`; the run is consumed and the
fragment so far is closed.  `acc` holds the current fragment reversed
(its head is the character just before the cursor); `inSep = true` while
consuming the remainder of a separator run (the fragment has already
been emitted and `acc` restarts empty). -/
def splitSentGo : List Char → List Char → Bool → List (List Char)
  | [], acc, _ => [acc.reverse]
  | c :: rest, acc, true =>
    if pySpace c then splitSentGo rest acc true
    else splitSentGo rest [c] false
  | c :: rest, acc, false =>
    if pySpace c && prevIsSentEnd acc then
      acc.reverse :: splitSentGo rest [] true
    else splitSentGo rest (c :: acc) false

/-- `re.split(r'(?<=[.!?])\s+', text)`. -/
def splitSentAux (text : List Char) : List (List Char) :=
  splitSentGo text [] false

/-- `PDFService._split_into_sentences`: regex split, then
`[s.strip() for s in sentences if s.strip()]`. -/
def splitIntoSentences (text : List Char) : List (List Char) :=
  ((splitSentAux text).map pyStrip).filter (fun s => !s.isEmpty)

/-- `PDFService.count_tokens` when the tiktoken tokenizer failed to load:
`len(text) // 4`.  (With tiktoken available the count is an opaque
function of the text; the chunker below is parametric in the counter.) -/
def fallbackCountTokens (text : List Char) : Nat := text.length / 4

/-- Sum of token counts of a sentence buffer:
`sum(self.count_tokens(s) for s in current_chunk)`. -/
def sumTok (tok : List Char → Nat) (l : List (List Char)) : Nat :=
  (l.map tok).sum

/-- `current_chunk[-2:] if len(current_chunk) >= 2 else current_chunk`. -/
def overlapOf (cur : List (List Char)) : List (List Char) :=
  if 2 ≤ cur.length then cur.drop (cur.length - 2) else cur

/-- The sentence loop of `PDFService._create_chunks`: greedily accumulate
sentences into `cur` with running token count `curT`; when the next
sentence would push past `maxTokens` and the buffer is non-empty, emit the
buffer with its token count, reseed with the last two sentences plus the
new one, and recompute the count; finally flush a non-empty buffer.
Emits the (sentence-buffer, token-count) pairs in order. -/
def chunkLoop (tok : List Char → Nat) (maxTokens : Nat) :
    List (List Char) → List (List Char) → Nat → List (List (List Char) × Nat)
  | [], cur, curT => if cur = [] then [] else [(cur, curT)]
  | s :: rest, cur, curT =>
    let sT := tok s
    if maxTokens < curT + sT ∧ cur ≠ [] then
      let newCur := overlapOf cur ++ [s]
      (cur, curT) :: chunkLoop tok maxTokens rest newCur (sumTok tok newCur)
    else
      chunkLoop tok maxTokens rest (cur ++ [s]) (curT + sT)

/-- Python `sep.join(parts)`. -/
def joinWith (sep : List Char) : List (List Char) → List Char
  | [] => []
  | [s] => s
  | s :: rest => s ++ sep ++ joinWith sep rest

/-- `' '.join(current_chunk)`. -/
def joinSp (l : List (List Char)) : List Char := joinWith [' '] l

/-- A chunk as built by `_create_chunks`: content, page number, chunk
index and the recorded metadata (`tokens`, `start_sentence`,
`end_sentence`). -/
structure PDFChunk where
  content : List Char
  page_number : Nat
  chunk_index : Nat
  tokens : Nat
  start_sentence : Nat
  end_sentence : Nat
  deriving Repr, DecidableEq

/-- `PDFService._create_chunks text page_number max_tokens`
(`max_tokens` defaults to 1000 at the call site). -/
def createChunks (tok : List Char → Nat) (text : List Char)
    (page_number : Nat) (maxTokens : Nat) : List PDFChunk :=
  if pyStrip text = [] then []
  else
    (chunkLoop tok maxTokens (splitIntoSentences text) [] 0).enum.map
      (fun p =>
        { content := joinSp p.2.1
          page_number := page_number
          chunk_index := p.1
          tokens := p.2.2
          start_sentence := 0
          end_sentence := p.2.1.length })

/-- `os.path.basename` on POSIX: the component after the last `/`. -/
def pyBasename (l : List Char) : List Char :=
  (l.reverse.takeWhile (fun c => c ≠ '/')).reverse

/-- The `dangerous_chars` list of `_sanitize_filename`. -/
def dangerousChars : List Char := ['<', '>', ':', '"', '|', '?', '*', '\\', '/']

/-- ASCII lowercasing, the fragment of `str.lower()` relevant to the
`.pdf` suffix check. -/
def asciiLower (c : Char) : Char :=
  if 'A' ≤ c ∧ c ≤ 'Z' then Char.ofNat (c.toNat + 32) else c

/-- `filename.lower().endswith('.pdf')`. -/
def endsWithPdf (l : List Char) : Bool :=
  List.isSuffixOf ['.', 'p', 'd', 'f'] (l.map asciiLower)

/-- `PDFService._sanitize_filename`: basename, replace each dangerous
character by `_`, then force a `.pdf` suffix. -/
def sanitizeFilename (filename : List Char) : List Char :=
  let b := pyBasename filename
  let b := dangerousChars.foldl
    (fun acc c => acc.map (fun d => if d = c then '_' else d)) b
  if endsWithPdf b then b else b ++ ['.', 'p', 'd', 'f']

/-!  `rag_service.py` — `RAGService.get_relevant_context`.

`self.search` is the Weaviate round trip (an external capability); the
candidate list it returns is taken as an input here.  Every record built
by `search` carries a `tokens` key (populated from the stored metadata),
so the `result.get('tokens', …)` default estimate is never consulted. -/

/-- One record of the list returned by `RAGService.search`. -/
structure SearchResult where
  content : List Char
  page_number : Nat
  tokens : Nat
  deriving Repr, DecidableEq

/-- Decimal rendering of the page number, as an f-string interpolates it. -/
def natToChars (n : Nat) : List Char := (Nat.repr n).toList

/-- `f"[Page {result['page_number']}] {result['content']}"`. -/
def pageTag (r : SearchResult) : List Char :=
  ('[' :: 'P' :: 'a' :: 'g' :: 'e' :: ' ' :: natToChars r.page_number)
    ++ [']', ' '] ++ r.content

/-- The accumulation loop of `get_relevant_context`: walk the candidates
in order, keeping a running token total; `break` at the first candidate
that would push the total past `maxTokens`. -/
def contextParts (maxTokens : Nat) : Nat → List SearchResult → List (List Char)
  | _, [] => []
  | cur, r :: rs =>
    if maxTokens < cur + r.tokens then []
    else pageTag r :: contextParts maxTokens (cur + r.tokens) rs

/-- `"\n\n".join(context_parts)`. -/
def joinNlNl (parts : List (List Char)) : List Char :=
  joinWith ['\n', '\n'] parts

/-- `RAGService.get_relevant_context` given the provider-returned
candidate list (already similarity-ordered and filename-filtered by
`search`); `max_tokens` defaults to 5000 at the call site. -/
def getRelevantContext (maxTokens : Nat) (results : List SearchResult) :
    List Char :=
  if results.isEmpty then []
  else joinNlNl (contextParts maxTokens 0 results)

/-!  `chat_service.py` — `ChatService`.

The mutable service state read and written by `set_pdf_context` and
`chat` is the record below; the Weaviate upsert
(`RAGService.create_embeddings`'s `insert_many` round trip) and the
OpenAI completion are explicit parameters. -/

/-- `models.ChatMessage` (the timestamp is set by a default factory and
never read by the service code, so it is not modelled). -/
structure ChatMessage where
  role : List Char
  content : List Char
  deriving Repr, DecidableEq

/-- The fields of `ChatService` that `set_pdf_context` / `chat` touch. -/
structure ChatState where
  pdf_context : Option (List Char)
  use_rag : Bool
  current_filename : Option (List Char)
  deriving Repr, DecidableEq

/-- Python truthiness of `self.pdf_context` (None or empty string ↦ false). -/
def pyTruthyOpt : Option (List Char) → Bool
  | none => false
  | some s => !s.isEmpty

/-- `RAGService.create_embeddings`: returns `False` for an empty chunk
list, otherwise succeeds iff the provider round trip (clear + batched
`insert_many`, modelled by `providerOk`) raises no exception. -/
def createEmbeddings (providerOk : Bool) (chunks : List PDFChunk) : Bool :=
  if chunks.isEmpty then false else providerOk

/-- `ChatService.set_pdf_context`: store text and filename; with more
than 5 chunks attempt embedding creation and activate RAG exactly when it
succeeds, otherwise stay in simple-context mode.  (The method overwrites
all three fields, so the prior state `_st` does not influence the
result.) -/
def setPdfContext (providerOk : Bool) (_st : ChatState) (pdf_text : List Char)
    (chunks : List PDFChunk) (filename : List Char) : ChatState :=
  { pdf_context := some pdf_text
    current_filename := some filename
    use_rag :=
      if !chunks.isEmpty ∧ 5 < chunks.length then
        createEmbeddings providerOk chunks
      else false }

/-- The fixed instruction block of `ChatService.create_system_prompt`
(the triple-quoted `base_prompt` literal, verbatim). -/
def basePrompt : List Char :=
  ("You are a helpful AI assistant that can answer questions about PDF documents. \n        You should provide accurate, helpful, and concise responses based on the information available in the PDF.\n        \n        Guidelines:\n        - Only answer questions based on the information provided in the PDF\n        - If the information is not available in the PDF, clearly state that\n        - Be helpful and conversational in your responses\n        - Provide specific references when possible (mention page numbers if available)\n        - Keep responses concise but informative\n        - If you\x27re referencing specific content, cite the page number\n        ").toList

/-- Header prepended to retrieved context. -/
def relevantHeader : List Char := ("\n\nRelevant PDF Content:\n").toList

/-- Header prepended to the fallback preview. -/
def previewHeader : List Char := ("\n\nPDF Content:\n").toList

/-- The truncation notice appended when the document exceeds 4000
characters. -/
def truncNote : List Char :=
  ("\n\n[Note: This is a preview of the PDF content. The full document contains more information.]").toList

/-- `ChatService.create_system_prompt`. -/
def createSystemPrompt (st : ChatState) (relevant_context : List Char) :
    List Char :=
  if !relevant_context.isEmpty then
    basePrompt ++ relevantHeader ++ relevant_context
  else if pyTruthyOpt st.pdf_context ∧ st.use_rag = false then
    let pc := st.pdf_context.getD []
    let withPreview := basePrompt ++ previewHeader ++ pc.take 4000
    if 4000 < pc.length then withPreview ++ truncNote else withPreview
  else basePrompt

/-- The context-selection step at the top of `ChatService.chat`:
RAG retrieval when active, else the first 5000 characters of the stored
document text (when truthy), else the empty string.  `retrieve` models
`self.rag_service.get_relevant_context(message, 5000, filename)`. -/
def computeRelevant (retrieve : List Char → List Char) (st : ChatState)
    (message : List Char) : List Char :=
  if st.use_rag then retrieve message
  else if pyTruthyOpt st.pdf_context then (st.pdf_context.getD []).take 5000
  else []

/-- Python `history[-8:]`. -/
def lastN (n : Nat) (l : List α) : List α := l.drop (l.length - n)

/-- The message list assembled by `ChatService.chat`: system prompt,
then the last 8 turns of history, then the new user message. -/
def buildMessages (st : ChatState) (relevant_context : List Char)
    (message : List Char) (history : List ChatMessage) : List ChatMessage :=
  ⟨("system").toList, createSystemPrompt st relevant_context⟩
    :: (lastN 8 history ++ [⟨("user").toList, message⟩])

/-- `ChatService.chat`.  `llm` models
`self.client.chat.completions.create` (returning `none` when the call
raises); the result is (reply if any, conversation history afterwards,
service state afterwards).  On an exception the method re-raises before
`updated_history.extend`, so the history and state are untouched; on
success exactly the user turn and the assistant turn are appended. -/
def chatMethod (retrieve : List Char → List Char)
    (llm : List ChatMessage → Option (List Char)) (st : ChatState)
    (message : List Char) (history : List ChatMessage) :
    Option (List Char) × List ChatMessage × ChatState :=
  let relevant := computeRelevant retrieve st message
  match llm (buildMessages st relevant message history) with
  | none => (none, history, st)
  | some reply =>
    (some reply,
     history ++ [⟨("user").toList, message⟩, ⟨("assistant").toList, reply⟩],
     st)

/-!  ### Derived definitions used in theorem statements -/

/-- The per-character effect of the replacement loop of
`_sanitize_filename`. -/
def sanitizeChar (d : Char) : Char :=
  dangerousChars.foldl (fun e c => if e = c then '_' else e) d

/-- Reconstruction of a sentence sequence from emitted buffers: drop `k`
seed sentences from the first buffer, then from each following buffer
drop the overlap seeded from its predecessor. -/
def reconFrom (k : Nat) : List (List (List Char) × Nat) → List (List Char)
  | [] => []
  | p :: ps => p.1.drop k ++ reconFrom (overlapOf p.1).length ps

/-- Number of candidates the accumulation loop of
`get_relevant_context` takes before `break`ing: the greedy prefix
count. -/
def greedyCount (maxTokens : Nat) : Nat → List SearchResult → Nat
  | _, [] => 0
  | cur, r :: rs =>
    if maxTokens < cur + r.tokens then 0
    else greedyCount maxTokens (cur + r.tokens) rs + 1

/-- Total of the recorded token estimates of a candidate list. -/
def sumTokens (rs : List SearchResult) : Nat :=
  (rs.map (fun r => r.tokens)).sum

/-- Normal form of text after the whitespace collapse of `_clean_text`:
every whitespace character is a plain space and no two whitespace
characters are adjacent. -/
def WsNormal (l : List Char) : Prop :=
  (∀ c ∈ l, pySpace c = true → c = ' ') ∧
  List.Chain' (fun a b : Char => ¬(pySpace a = true ∧ pySpace b = true)) l

/-- A four-sentence page text on which the chunker overruns its token
budget: each sentence is 20 characters, i.e. 5 tokens under the fallback
counter. -/
def cexText : List Char :=
  ("aaaaaaaaaaaaaaaaaaa. aaaaaaaaaaaaaaaaaaa. aaaaaaaaaaaaaaaaaaa. aaaaaaaaaaaaaaaaaaa.").toList

/-!  ### Lemmas about `_sanitize_filename` (claim C10) -/

theorem foldl_replace_eq_map (cs : List Char) (b : List Char) :
    cs.foldl (fun acc c => acc.map (fun d => if d = c then '_' else d)) b
      = b.map (fun d => cs.foldl (fun e c => if e = c then '_' else e) d) := by
  induction cs generalizing b with
  | nil => simp
  | cons c cs ih =>
    simp only [List.foldl_cons]
    rw [ih, List.map_map]
    rfl

theorem sanitizeChar_not_dangerous (d : Char) : sanitizeChar d ∉ dangerousChars := by
  by_cases h1 : d = '<'
  · subst h1; decide
  by_cases h2 : d = '>'
  · subst h2; decide
  by_cases h3 : d = ':'
  · subst h3; decide
  by_cases h4 : d = '"'
  · subst h4; decide
  by_cases h5 : d = '|'
  · subst h5; decide
  by_cases h6 : d = '?'
  · subst h6; decide
  by_cases h7 : d = '*'
  · subst h7; decide
  by_cases h8 : d = '\\'
  · subst h8; decide
  by_cases h9 : d = '/'
  · subst h9; decide
  have hs : sanitizeChar d = d := by
    simp only [sanitizeChar, dangerousChars, List.foldl_cons, List.foldl_nil,
      if_neg h1, if_neg h2, if_neg h3, if_neg h4, if_neg h5, if_neg h6,
      if_neg h7, if_neg h8, if_neg h9]
  rw [hs]
  simp only [dangerousChars, List.mem_cons, List.not_mem_nil, or_false]
  intro hmem
  rcases hmem with h | h | h | h | h | h | h | h | h
  exacts [h1 h, h2 h, h3 h, h4 h, h5 h, h6 h, h7 h, h8 h, h9 h]

theorem asciiLower_fixes_pdf :
    (['.', 'p', 'd', 'f'] : List Char).map asciiLower = ['.', 'p', 'd', 'f'] := by
  decide

/-- **C10**: for every input filename, `_sanitize_filename` returns a
string with no path separator and none of the dangerous characters
`< > : " | ? *`, and ending in `.pdf` up to ASCII case; hence
`save_pdf` writes `upload_dir / result` inside the upload directory
under a `.pdf` name. -/
theorem sanitizeFilename_safe (s : List Char) :
    (∀ c ∈ sanitizeFilename s, c ∉ dangerousChars) ∧
      ['.', 'p', 'd', 'f'] <:+ (sanitizeFilename s).map asciiLower := by
  simp only [sanitizeFilename]
  rw [foldl_replace_eq_map]
  set b := (pyBasename s).map
    (fun d => dangerousChars.foldl (fun e c => if e = c then '_' else e) d) with hb
  have hmem : ∀ c ∈ b, c ∉ dangerousChars := by
    intro c hc
    rw [hb] at hc
    rcases List.mem_map.mp hc with ⟨d, _, rfl⟩
    exact sanitizeChar_not_dangerous d
  by_cases hend : endsWithPdf b
  · rw [if_pos hend]
    refine ⟨hmem, ?_⟩
    have := List.isSuffixOf_iff_suffix.mp hend
    exact this
  · rw [if_neg hend]
    constructor
    · intro c hc
      rcases List.mem_append.mp hc with h | h
      · exact hmem c h
      · intro hdanger
        simp only [List.mem_cons, List.not_mem_nil, or_false] at h
        rcases h with h | h | h | h <;> subst h <;> revert hdanger <;> decide
    · rw [List.map_append, asciiLower_fixes_pdf]
      exact List.suffix_append _ _

/-!  ### Lemmas about the chunker (claims C1, C4, C5) -/

theorem overlapOf_length_le (cur : List (List Char)) :
    (overlapOf cur).length ≤ 2 := by
  unfold overlapOf
  split
  · simp only [List.length_drop]; omega
  · omega

theorem overlapOf_ne_nil (cur : List (List Char)) (h : cur ≠ []) :
    overlapOf cur ≠ [] := by
  unfold overlapOf
  split
  · intro hnil
    have hlen : cur.length - (cur.length - 2) = 0 := by
      rw [← List.length_drop, hnil]; rfl
    omega
  · exact h

theorem overlapOf_suffix (cur : List (List Char)) : overlapOf cur <:+ cur := by
  unfold overlapOf
  split
  · exact List.drop_suffix _ _
  · exact List.suffix_refl _

theorem chunkLoop_head_seed (tok : List Char → Nat) (maxT : Nat)
    (ss : List (List Char)) :
    ∀ cur t p ps, chunkLoop tok maxT ss cur t = p :: ps → cur <+: p.1 := by
  induction ss with
  | nil =>
    intro cur t p ps h
    by_cases hc : cur = []
    · simp [chunkLoop, hc] at h
    · simp only [chunkLoop, if_neg hc] at h
      cases h
      exact List.prefix_rfl
  | cons s rest ih =>
    intro cur t p ps h
    by_cases hc : maxT < t + tok s ∧ cur ≠ []
    · simp only [chunkLoop, if_pos hc] at h
      cases h
      exact List.prefix_rfl
    · simp only [chunkLoop, if_neg hc] at h
      exact List.IsPrefix.trans (List.prefix_append cur [s]) (ih _ _ p ps h)

theorem chunkLoop_chain (tok : List Char → Nat) (maxT : Nat)
    (ss : List (List Char)) :
    ∀ cur t, List.Chain' (fun a b => overlapOf a.1 <+: b.1)
      (chunkLoop tok maxT ss cur t) := by
  induction ss with
  | nil =>
    intro cur t
    by_cases hc : cur = [] <;> simp [chunkLoop, hc]
  | cons s rest ih =>
    intro cur t
    by_cases hc : maxT < t + tok s ∧ cur ≠ []
    · simp only [chunkLoop, if_pos hc]
      rw [List.chain'_cons']
      refine ⟨?_, ih _ _⟩
      intro y hy
      cases hhead : chunkLoop tok maxT rest (overlapOf cur ++ [s])
          (sumTok tok (overlapOf cur ++ [s])) with
      | nil => rw [hhead] at hy; simp at hy
      | cons q qs =>
        rw [hhead] at hy
        simp only [List.head?_cons, Option.mem_def, Option.some.injEq] at hy
        subst hy
        exact List.IsPrefix.trans (List.prefix_append _ [s])
          (chunkLoop_head_seed tok maxT rest _ _ q qs hhead)
    · simp only [chunkLoop, if_neg hc]
      exact ih _ _

theorem chunkLoop_buf_ne_nil (tok : List Char → Nat) (maxT : Nat)
    (ss : List (List Char)) :
    ∀ cur t p, p ∈ chunkLoop tok maxT ss cur t → p.1 ≠ [] := by
  induction ss with
  | nil =>
    intro cur t p hp
    by_cases hc : cur = []
    · simp [chunkLoop, hc] at hp
    · simp only [chunkLoop, if_neg hc, List.mem_singleton] at hp
      subst hp; exact hc
  | cons s rest ih =>
    intro cur t p hp
    by_cases hc : maxT < t + tok s ∧ cur ≠ []
    · simp only [chunkLoop, if_pos hc, List.mem_cons] at hp
      rcases hp with rfl | hp
      · exact hc.2
      · exact ih _ _ p hp
    · simp only [chunkLoop, if_neg hc] at hp
      exact ih _ _ p hp

theorem sumTok_append (tok : List Char → Nat) (l₁ l₂ : List (List Char)) :
    sumTok tok (l₁ ++ l₂) = sumTok tok l₁ + sumTok tok l₂ := by
  simp [sumTok]

theorem chunkLoop_tokens (tok : List Char → Nat) (maxT : Nat)
    (ss : List (List Char)) :
    ∀ cur t, t = sumTok tok cur →
      ∀ p ∈ chunkLoop tok maxT ss cur t, p.2 = sumTok tok p.1 := by
  induction ss with
  | nil =>
    intro cur t ht p hp
    by_cases hc : cur = []
    · simp [chunkLoop, hc] at hp
    · simp only [chunkLoop, if_neg hc, List.mem_singleton] at hp
      subst hp; exact ht
  | cons s rest ih =>
    intro cur t ht p hp
    by_cases hc : maxT < t + tok s ∧ cur ≠ []
    · simp only [chunkLoop, if_pos hc, List.mem_cons] at hp
      rcases hp with rfl | hp
      · exact ht
      · exact ih _ _ rfl p hp
    · simp only [chunkLoop, if_neg hc] at hp
      refine ih _ _ ?_ p hp
      rw [sumTok_append, ← ht]
      simp [sumTok]

theorem chunkLoop_over_budget (tok : List Char → Nat) (maxT : Nat)
    (ss : List (List Char)) :
    ∀ cur t, (maxT < t → cur.length ≤ 3) →
      ∀ p ∈ chunkLoop tok maxT ss cur t, maxT < p.2 → p.1.length ≤ 3 := by
  induction ss with
  | nil =>
    intro cur t hinv p hp hover
    by_cases hc : cur = []
    · simp [chunkLoop, hc] at hp
    · simp only [chunkLoop, if_neg hc, List.mem_singleton] at hp
      subst hp; exact hinv hover
  | cons s rest ih =>
    intro cur t hinv p hp hover
    by_cases hc : maxT < t + tok s ∧ cur ≠ []
    · simp only [chunkLoop, if_pos hc, List.mem_cons] at hp
      rcases hp with rfl | hp
      · exact hinv hover
      · refine ih _ _ ?_ p hp hover
        intro _
        have := overlapOf_length_le cur
        simp only [List.length_append, List.length_singleton]
        omega
    · simp only [chunkLoop, if_neg hc] at hp
      refine ih _ _ ?_ p hp hover
      intro hlt
      rcases not_and_or.mp hc with h | h
      · exact absurd hlt h
      · have : cur = [] := not_not.mp h
        subst this; simp

theorem chunkLoop_sent_mem (tok : List Char → Nat) (maxT : Nat)
    (ss : List (List Char)) :
    ∀ cur t p, p ∈ chunkLoop tok maxT ss cur t →
      ∀ x ∈ p.1, x ∈ cur ∨ x ∈ ss := by
  induction ss with
  | nil =>
    intro cur t p hp x hx
    by_cases hc : cur = []
    · simp [chunkLoop, hc] at hp
    · simp only [chunkLoop, if_neg hc, List.mem_singleton] at hp
      subst hp; exact Or.inl hx
  | cons s rest ih =>
    intro cur t p hp x hx
    by_cases hc : maxT < t + tok s ∧ cur ≠ []
    · simp only [chunkLoop, if_pos hc, List.mem_cons] at hp
      rcases hp with rfl | hp
      · exact Or.inl hx
      · rcases ih _ _ p hp x hx with h | h
        · rcases List.mem_append.mp h with h | h
          · exact Or.inl (List.IsSuffix.subset (overlapOf_suffix cur) h)
          · simp only [List.mem_singleton] at h
            subst h; exact Or.inr (List.mem_cons_self _ _)
        · exact Or.inr (List.mem_cons_of_mem _ h)
    · simp only [chunkLoop, if_neg hc] at hp
      rcases ih _ _ p hp x hx with h | h
      · rcases List.mem_append.mp h with h | h
        · exact Or.inl h
        · simp only [List.mem_singleton] at h
          subst h; exact Or.inr (List.mem_cons_self _ _)
      · exact Or.inr (List.mem_cons_of_mem _ h)

theorem chunkLoop_recon (tok : List Char → Nat) (maxT : Nat)
    (ss : List (List Char)) :
    ∀ cur t k, k ≤ cur.length →
      reconFrom k (chunkLoop tok maxT ss cur t) = cur.drop k ++ ss := by
  induction ss with
  | nil =>
    intro cur t k hk
    by_cases hc : cur = []
    · subst hc
      simp only [List.length_nil, Nat.le_zero] at hk
      subst hk
      simp [chunkLoop, reconFrom]
    · simp [chunkLoop, hc, reconFrom]
  | cons s rest ih =>
    intro cur t k hk
    by_cases hc : maxT < t + tok s ∧ cur ≠ []
    · simp only [chunkLoop, if_pos hc, reconFrom]
      rw [ih (overlapOf cur ++ [s]) _ (overlapOf cur).length (by simp)]
      rw [List.drop_left]
      simp
    · simp only [chunkLoop, if_neg hc]
      rw [ih (cur ++ [s]) _ k (le_trans hk (by simp))]
      rw [List.drop_append_of_le_length hk]
      simp

theorem joinWith_cons₂ (sep x y : List Char) (l : List (List Char)) :
    joinWith sep (x :: y :: l) = x ++ sep ++ joinWith sep (y :: l) := rfl

theorem joinWith_append (sep : List Char) :
    ∀ l₁ l₂ : List (List Char), l₁ ≠ [] → l₂ ≠ [] →
      joinWith sep (l₁ ++ l₂) = joinWith sep l₁ ++ sep ++ joinWith sep l₂ := by
  intro l₁
  induction l₁ with
  | nil => intro l₂ h _; exact absurd rfl h
  | cons a l₁ ih =>
    intro l₂ _ h₂
    cases l₁ with
    | nil =>
      cases l₂ with
      | nil => exact absurd rfl h₂
      | cons b l₂ => simp [joinWith]
    | cons c l₁ =>
      simp only [List.cons_append, joinWith_cons₂]
      rw [← List.cons_append, ih l₂ (by simp) h₂]
      simp [List.append_assoc]

theorem suffix_append_left {α : Type} {y z : List α} (x : List α)
    (h : y <:+ z) : y <:+ x ++ z := by
  rcases h with ⟨w, rfl⟩
  exact ⟨x ++ w, by simp⟩

theorem joinSp_suffix_of_suffix {ov buf : List (List Char)} (hne : ov ≠ [])
    (h : ov <:+ buf) : joinSp ov <:+ joinSp buf := by
  rcases h with ⟨pre, rfl⟩
  by_cases hpre : pre = []
  · subst hpre; exact List.suffix_refl _
  · unfold joinSp
    rw [joinWith_append [' '] pre ov hpre hne]
    rw [List.append_assoc]
    exact suffix_append_left _ (List.suffix_append _ _)

theorem joinSp_prefix_of_prefix {ov buf : List (List Char)} (hne : ov ≠ [])
    (h : ov <+: buf) : joinSp ov <+: joinSp buf := by
  rcases h with ⟨rest, rfl⟩
  by_cases hrest : rest = []
  · subst hrest; simp
  · unfold joinSp
    rw [joinWith_append [' '] ov rest hne hrest]
    rw [List.append_assoc]
    exact List.prefix_append _ _

theorem chain'_and_mem {A : Type} (R : A → A → Prop) (P : A → Prop) :
    ∀ l : List A, List.Chain' R l → (∀ p ∈ l, P p) →
      List.Chain' (fun a b => R a b ∧ P a) l := by
  intro l
  induction l with
  | nil => intro _ _; simp
  | cons a l ih =>
    intro hch hall
    rw [List.chain'_cons'] at hch ⊢
    exact ⟨fun y hy => ⟨hch.1 y hy, hall a (List.mem_cons_self _ _)⟩,
      ih hch.2 (fun p hp => hall p (List.mem_cons_of_mem _ hp))⟩

theorem chain'_map_enumFrom {A B : Type} (R : A → A → Prop) (R' : B → B → Prop)
    (f : Nat × A → B) (h : ∀ i a j b, R a b → R' (f (i, a)) (f (j, b))) :
    ∀ (l : List A) (n : Nat), List.Chain' R l →
      List.Chain' R' ((l.enumFrom n).map f) := by
  intro l
  induction l with
  | nil => intro n _; simp
  | cons a l ih =>
    intro n hch
    rw [List.enumFrom_cons, List.map_cons, List.chain'_cons']
    constructor
    · intro y hy
      cases l with
      | nil => simp at hy
      | cons b l' =>
        rw [List.enumFrom_cons, List.map_cons] at hy
        simp only [List.head?_cons, Option.mem_def, Option.some.injEq] at hy
        subst hy
        exact h n a (n + 1) b (List.chain'_cons.mp hch).1
    · exact ih (n + 1) (List.Chain'.tail hch)

theorem mem_of_mem_enumFrom {A : Type} :
    ∀ (l : List A) (n : Nat) (p : Nat × A), p ∈ l.enumFrom n → p.2 ∈ l := by
  intro l
  induction l with
  | nil => intro n p hp; simp at hp
  | cons a l ih =>
    intro n p hp
    rw [List.enumFrom_cons, List.mem_cons] at hp
    rcases hp with rfl | hp
    · exact List.mem_cons_self _ _
    · exact List.mem_cons_of_mem _ (ih (n + 1) p hp)

/-- **C4**: consecutive chunks on a page overlap: the trailing block of
up to two sentences of chunk `i` (all of them when it has fewer than
two) is exactly the leading sentence block of chunk `i+1`; at the level
of the emitted `PDFChunk`s, the space-join of that non-empty sentence
block is simultaneously a suffix of chunk `i`'s content and a prefix of
chunk `i+1`'s content. -/
theorem createChunks_overlap (tok : List Char → Nat) (text : List Char)
    (page maxT : Nat) :
    List.Chain' (fun a b => overlapOf a.1 <+: b.1)
      (chunkLoop tok maxT (splitIntoSentences text) [] 0) ∧
    List.Chain' (fun c d : PDFChunk => ∃ ov : List (List Char),
        ov ≠ [] ∧ ov.length ≤ 2 ∧
        joinSp ov <:+ c.content ∧ joinSp ov <+: d.content)
      (createChunks tok text page maxT) := by
  refine ⟨chunkLoop_chain tok maxT _ [] 0, ?_⟩
  unfold createChunks
  split
  · simp
  · refine chain'_map_enumFrom
      (fun a b => (overlapOf a.1 <+: b.1) ∧ a.1 ≠ [])
      _ _ ?_ _ 0
      (chain'_and_mem _ _ _ (chunkLoop_chain tok maxT _ [] 0)
        (fun p hp => chunkLoop_buf_ne_nil tok maxT _ [] 0 p hp))
    intro i a j b hab
    refine ⟨overlapOf a.1, overlapOf_ne_nil a.1 hab.2, overlapOf_length_le a.1,
      ?_, ?_⟩
    · exact joinSp_suffix_of_suffix (overlapOf_ne_nil a.1 hab.2)
        (overlapOf_suffix a.1)
    · exact joinSp_prefix_of_prefix (overlapOf_ne_nil a.1 hab.2) hab.1

/-- **C5**: the chunker loses no sentence: dropping from every later
buffer the overlap block seeded from its predecessor and concatenating
reconstructs exactly the sentence sequence the splitter produced, in
order. -/
theorem createChunks_coverage (tok : List Char → Nat) (maxT : Nat)
    (text : List Char) :
    reconFrom 0 (chunkLoop tok maxT (splitIntoSentences text) [] 0)
      = splitIntoSentences text := by
  have h := chunkLoop_recon tok maxT (splitIntoSentences text) [] 0 0
    (by simp)
  simpa using h

/-- **C1 (amended)**: every emitted chunk records as `tokens` the sum of
the token counts of its constituent sentences, each of which is a
sentence of the input (no sentence is ever split); a chunk whose
recorded count exceeds `max_tokens` consists of at most three sentences
— the reseeded overlap of up to two sentences plus the single newly
arrived sentence (the claim's "single pathological sentence" is the
one-sentence instance, but larger over-budget seeds also occur). -/
theorem createChunks_token_ceiling (tok : List Char → Nat) (text : List Char)
    (page maxT : Nat) :
    (∀ p ∈ chunkLoop tok maxT (splitIntoSentences text) [] 0,
      p.2 = sumTok tok p.1 ∧ (maxT < p.2 → p.1.length ≤ 3) ∧
      ∀ x ∈ p.1, x ∈ splitIntoSentences text) ∧
    (∀ c ∈ createChunks tok text page maxT, maxT < c.tokens →
      ∃ buf : List (List Char), c.content = joinSp buf ∧
        c.tokens = sumTok tok buf ∧ buf.length ≤ 3 ∧
        ∀ x ∈ buf, x ∈ splitIntoSentences text) := by
  have hmain : ∀ p ∈ chunkLoop tok maxT (splitIntoSentences text) [] 0,
      p.2 = sumTok tok p.1 ∧ (maxT < p.2 → p.1.length ≤ 3) ∧
      ∀ x ∈ p.1, x ∈ splitIntoSentences text := by
    intro p hp
    refine ⟨chunkLoop_tokens tok maxT _ [] 0 (by simp [sumTok]) p hp,
      chunkLoop_over_budget tok maxT _ [] 0 (by intro h; omega) p hp, ?_⟩
    intro x hx
    rcases chunkLoop_sent_mem tok maxT _ [] 0 p hp x hx with h | h
    · simp at h
    · exact h
  refine ⟨hmain, ?_⟩
  intro c hc hover
  unfold createChunks at hc
  split at hc
  · simp at hc
  · rcases List.mem_map.mp hc with ⟨q, hq, rfl⟩
    have hqmem := mem_of_mem_enumFrom _ 0 q hq
    rcases hmain q.2 hqmem with ⟨ht, hlen, hsent⟩
    exact ⟨q.2.1, rfl, ht, hlen (ht ▸ hover), hsent⟩

set_option maxHeartbeats 1000000 in
/-- **C1 (counterexample)**: with the source's fallback token counter and
`max_tokens = 10`, a four-sentence page whose sentences each count only
5 tokens still produces a chunk recorded at 15 tokens — the overlap
reseeding (`overlap + sentence`) exceeds the budget even though no
single sentence does, refuting the claim that only a single pathological
over-long sentence can breach the ceiling. -/
theorem createChunks_token_ceiling_cex :
    (∃ c ∈ createChunks fallbackCountTokens cexText 0 10, 10 < c.tokens) ∧
    ∀ s ∈ splitIntoSentences cexText, fallbackCountTokens s ≤ 10 := by
  decide

set_option maxHeartbeats 1000000 in
/-- Witness for `createChunks_token_ceiling`: the over-budget middle
chunk of `cexText` decomposes into three whole input sentences. -/
theorem createChunks_token_ceiling_witness :
    ∃ buf : List (List Char),
      (⟨("aaaaaaaaaaaaaaaaaaa. aaaaaaaaaaaaaaaaaaa. aaaaaaaaaaaaaaaaaaa.").toList,
        0, 1, 15, 0, 3⟩ : PDFChunk).content = joinSp buf ∧
      (⟨("aaaaaaaaaaaaaaaaaaa. aaaaaaaaaaaaaaaaaaa. aaaaaaaaaaaaaaaaaaa.").toList,
        0, 1, 15, 0, 3⟩ : PDFChunk).tokens = sumTok fallbackCountTokens buf ∧
      buf.length ≤ 3 ∧ ∀ x ∈ buf, x ∈ splitIntoSentences cexText := by
  exact (createChunks_token_ceiling fallbackCountTokens cexText 0 10).2
    _ (by decide) (by decide)

/-!  ### Context assembly (claim C2) -/

theorem contextParts_eq_take (maxTokens : Nat) (rs : List SearchResult) :
    ∀ cur, contextParts maxTokens cur rs
      = (rs.take (greedyCount maxTokens cur rs)).map pageTag := by
  induction rs with
  | nil => intro cur; rfl
  | cons r rs ih =>
    intro cur
    by_cases h : maxTokens < cur + r.tokens
    · simp [contextParts, greedyCount, h]
    · simp [contextParts, greedyCount, h, ih]

theorem greedyCount_le_length (maxTokens : Nat) (rs : List SearchResult) :
    ∀ cur, greedyCount maxTokens cur rs ≤ rs.length := by
  induction rs with
  | nil => intro cur; simp [greedyCount]
  | cons r rs ih =>
    intro cur
    by_cases h : maxTokens < cur + r.tokens
    · simp [greedyCount, h]
    · simpa [greedyCount, h] using ih (cur + r.tokens)

theorem greedyCount_budget (maxTokens : Nat) (rs : List SearchResult) :
    ∀ cur, cur ≤ maxTokens →
      cur + sumTokens (rs.take (greedyCount maxTokens cur rs)) ≤ maxTokens := by
  induction rs with
  | nil => intro cur hcur; simpa [greedyCount, sumTokens] using hcur
  | cons r rs ih =>
    intro cur hcur
    by_cases h : maxTokens < cur + r.tokens
    · simpa [greedyCount, h, sumTokens] using hcur
    · have hfit : cur + r.tokens ≤ maxTokens := Nat.le_of_not_lt h
      have := ih (cur + r.tokens) hfit
      simp only [greedyCount, if_neg h, List.take_succ_cons, sumTokens,
        List.map_cons, List.sum_cons] at *
      omega

theorem greedyCount_boundary (maxTokens : Nat) (rs : List SearchResult) :
    ∀ cur, greedyCount maxTokens cur rs < rs.length →
      maxTokens < cur + sumTokens (rs.take (greedyCount maxTokens cur rs + 1)) := by
  induction rs with
  | nil => intro cur hlt; simp [greedyCount] at hlt
  | cons r rs ih =>
    intro cur hlt
    by_cases h : maxTokens < cur + r.tokens
    · simp [greedyCount, h, sumTokens]
    · simp only [greedyCount, if_neg h, List.length_cons,
        Nat.add_lt_add_iff_right] at hlt
      have := ih (cur + r.tokens) hlt
      simp only [greedyCount, if_neg h, List.take_succ_cons, sumTokens,
        List.map_cons, List.sum_cons] at *
      omega

/-- **C2**: `get_relevant_context` returns exactly the greedy prefix of
the provider-ordered candidates, each item rendered as
`[Page n] content` and the items joined by blank lines; the accumulated
token estimate of the selected candidates never exceeds `max_tokens`;
the loop stops just before the first candidate that would overflow the
budget (never mid-candidate); and the result is empty when there are no
candidates or when the very first candidate alone exceeds the budget. -/
theorem getRelevantContext_spec (maxTokens : Nat) (results : List SearchResult) :
    getRelevantContext maxTokens results
        = joinNlNl ((results.take (greedyCount maxTokens 0 results)).map pageTag) ∧
      greedyCount maxTokens 0 results ≤ results.length ∧
      sumTokens (results.take (greedyCount maxTokens 0 results)) ≤ maxTokens ∧
      (greedyCount maxTokens 0 results < results.length →
        maxTokens < sumTokens (results.take (greedyCount maxTokens 0 results + 1))) ∧
      (results = [] → getRelevantContext maxTokens results = []) ∧
      (∀ r rs, results = r :: rs → maxTokens < r.tokens →
        getRelevantContext maxTokens results = []) := by
  refine ⟨?_, greedyCount_le_length maxTokens results 0,
    by simpa using greedyCount_budget maxTokens results 0 (Nat.zero_le _),
    by simpa using greedyCount_boundary maxTokens results 0, ?_, ?_⟩
  · cases results with
    | nil => rfl
    | cons r rs =>
      simp only [getRelevantContext, List.isEmpty_cons, Bool.false_eq_true,
        if_false, contextParts_eq_take]
  · intro h; subst h; rfl
  · intro r rs h hover
    subst h
    have : greedyCount maxTokens 0 (r :: rs) = 0 := by
      simp [greedyCount, hover]
    simp [getRelevantContext, contextParts_eq_take, this, joinNlNl, joinWith]

/-- Witness for `getRelevantContext_spec`: a budget of 50 over three
20-token candidates selects exactly the first two; an over-budget first
candidate yields the empty context. -/
theorem getRelevantContext_spec_witness :
    getRelevantContext 50
        [⟨("alpha").toList, 1, 20⟩, ⟨("beta").toList, 3, 20⟩,
         ⟨("gamma").toList, 0, 20⟩]
      = ("[Page 1] alpha\n\n[Page 3] beta").toList ∧
    (50 : Nat) < sumTokens
        ([(⟨("alpha").toList, 1, 20⟩ : SearchResult), ⟨("beta").toList, 3, 20⟩,
          ⟨("gamma").toList, 0, 20⟩].take
          (greedyCount 50 0
            [⟨("alpha").toList, 1, 20⟩, ⟨("beta").toList, 3, 20⟩,
             ⟨("gamma").toList, 0, 20⟩] + 1)) ∧
    getRelevantContext 50 [] = [] ∧
    getRelevantContext 10 [⟨("alpha").toList, 1, 20⟩] = [] := by
  refine ⟨?_, ?_, ?_, ?_⟩
  · have := (getRelevantContext_spec 50
      [⟨("alpha").toList, 1, 20⟩, ⟨("beta").toList, 3, 20⟩,
       ⟨("gamma").toList, 0, 20⟩]).1
    rw [this]
    decide
  · exact (getRelevantContext_spec 50
      [⟨("alpha").toList, 1, 20⟩, ⟨("beta").toList, 3, 20⟩,
       ⟨("gamma").toList, 0, 20⟩]).2.2.2.1 (by decide)
  · exact (getRelevantContext_spec 50 []).2.2.2.2.1 rfl
  · exact (getRelevantContext_spec 10 [⟨("alpha").toList, 1, 20⟩]).2.2.2.2.2
      ⟨("alpha").toList, 1, 20⟩ [] rfl (by decide)

/-!  ### Mode selection and chat-turn integrity (claims C3, C9) -/

/-- **C3**: after `set_pdf_context`, RAG/retrieval mode is active iff the
document produced strictly more than 5 chunks and the embedding upsert
succeeded; otherwise the service is in full-context mode.  Moreover a
chat turn never changes the service state (in particular it neither
retries the embedding nor flips `use_rag`), so the mode persists for the
document's active lifetime. -/
theorem setPdfContext_mode (providerOk : Bool) (st st' : ChatState)
    (text : List Char) (chunks : List PDFChunk) (fn : List Char) :
    ((setPdfContext providerOk st text chunks fn).use_rag = true ↔
      (5 < chunks.length ∧ providerOk = true)) ∧
    (∀ retrieve llm m h, (chatMethod retrieve llm st' m h).2.2 = st') := by
  constructor
  · by_cases hlen : 5 < chunks.length
    · have hne : ¬chunks.isEmpty := by
        cases chunks with
        | nil => simp at hlen
        | cons a l => simp
      simp [setPdfContext, createEmbeddings, hlen, hne]
    · simp [setPdfContext, hlen]
  · intro retrieve llm m h
    simp only [chatMethod]
    split <;> rfl

/-- Witness for `setPdfContext_mode`: a 6-chunk document with a
successful upsert activates retrieval mode. -/
theorem setPdfContext_mode_witness :
    (setPdfContext true ⟨none, false, none⟩ ("doc").toList
        (List.replicate 6
          { content := ("c").toList, page_number := 0, chunk_index := 0,
            tokens := 1, start_sentence := 0, end_sentence := 1 })
        ("f.pdf").toList).use_rag = true := by
  exact (setPdfContext_mode true ⟨none, false, none⟩ ⟨none, false, none⟩
    ("doc").toList _ ("f.pdf").toList).1.mpr ⟨by decide, rfl⟩

/-- **C9**: if the language-model call fails, `chat` surfaces the error
and leaves the conversation history (and state) exactly as before; on
success it returns the input history with exactly the user turn and the
assistant turn appended, with no earlier turn modified, reordered or
dropped. -/
theorem chat_history_integrity (retrieve : List Char → List Char)
    (llm : List ChatMessage → Option (List Char)) (st : ChatState)
    (m : List Char) (history : List ChatMessage) :
    (llm (buildMessages st (computeRelevant retrieve st m) m history) = none →
      chatMethod retrieve llm st m history = (none, history, st)) ∧
    (∀ r, llm (buildMessages st (computeRelevant retrieve st m) m history) = some r →
      chatMethod retrieve llm st m history =
        (some r,
         history ++ [⟨("user").toList, m⟩, ⟨("assistant").toList, r⟩],
         st)) := by
  constructor
  · intro hfail
    simp [chatMethod, hfail]
  · intro r hok
    simp [chatMethod, hok]

/-- Witness for `chat_history_integrity`: one failing call and one
successful call at concrete inputs. -/
theorem chat_history_integrity_witness :
    chatMethod (fun _ => []) (fun _ => none) ⟨none, false, none⟩
        ("hi").toList [] = (none, [], ⟨none, false, none⟩) ∧
    chatMethod (fun _ => []) (fun _ => some ("ok").toList) ⟨none, false, none⟩
        ("hi").toList []
      = (some ("ok").toList,
         [⟨("user").toList, ("hi").toList⟩,
          ⟨("assistant").toList, ("ok").toList⟩],
         ⟨none, false, none⟩) := by
  constructor
  · exact (chat_history_integrity (fun _ => []) (fun _ => none)
      ⟨none, false, none⟩ ("hi").toList []).1 rfl
  · exact (chat_history_integrity (fun _ => []) (fun _ => some ("ok").toList)
      ⟨none, false, none⟩ ("hi").toList []).2 ("ok").toList rfl

/-- Witness for `sanitizeFilename_safe` at a path-traversal input. -/
theorem sanitizeFilename_safe_witness :
    ('/' ∉ sanitizeFilename ("../../etc/pass|wd").toList) ∧
      ['.', 'p', 'd', 'f'] <:+
        (sanitizeFilename ("../../etc/pass|wd").toList).map asciiLower := by
  refine ⟨?_, (sanitizeFilename_safe ("../../etc/pass|wd").toList).2⟩
  intro hmem
  exact (sanitizeFilename_safe ("../../etc/pass|wd").toList).1 '/' hmem
    (by decide)

/-!  ### The page-number removal slip (claim C7) -/

/-- **C7**: contrary to the code's own comment (and the spec), standalone
numeric lines are *not* removed: `_clean_text` collapses all whitespace —
newlines included — to single spaces *before* running the MULTILINE
page-number regex, so line boundaries are gone and the line `42` survives
verbatim in the output.  The regex can only ever fire when the entire
page text is one number. -/
theorem cleanText_numeric_line_retained :
    cleanText ("Intro.\n42\nNext.").toList = ("Intro. 42 Next.").toList ∧
    ['4', '2'] <:+: cleanText ("Intro.\n42\nNext.").toList ∧
    cleanText ("42").toList = [] := by
  refine ⟨by decide, ?_, by decide⟩
  decide

/-!  ### The full-context preview (claim C8) -/

set_option maxRecDepth 4000 in
/-- **C8 (counterexample)**: a document is loaded and retrieval yields no
context, yet the system message contains no preview of the document at
all: with `use_rag = true` the fallback branch of `create_system_prompt`
is disabled (`not self.use_rag` fails), so the prompt is the bare base
instructions and the document text `7seven7` appears nowhere in it. -/
theorem chat_no_preview_in_rag_mode_cex :
    computeRelevant (fun _ => []) ⟨some ("7seven7").toList, true, none⟩
        ("q").toList = [] ∧
    (buildMessages ⟨some ("7seven7").toList, true, none⟩
        (computeRelevant (fun _ => []) ⟨some ("7seven7").toList, true, none⟩
          ("q").toList)
        ("q").toList []).head?
      = some ⟨("system").toList, basePrompt⟩ ∧
    ¬(("7seven7").toList <:+: basePrompt) := by
  refine ⟨rfl, rfl, ?_⟩
  intro h
  have h7 : '7' ∈ basePrompt :=
    List.Sublist.subset (List.IsInfix.sublist h) (by decide)
  revert h7
  simp [basePrompt]

/-- **C8 (amended)**: when retrieval yields no context in retrieval mode
the system prompt is the bare base instructions (no preview).  In
full-context mode `chat` itself supplies the first 5000 characters of the
document as the "relevant context", so the system message embeds the
5000-character-capped text under the retrieved-content header, with no
truncation notice.  The 4000-character-capped preview with its
truncation notice (appended exactly when the text exceeds 4000
characters) arises only when `create_system_prompt` is invoked with an
empty context while a document is loaded and `use_rag` is off. -/
theorem createSystemPrompt_preview (retrieve : List Char → List Char)
    (st : ChatState) (doc m : List Char) :
    (st.use_rag = true → retrieve m = [] →
      createSystemPrompt st (computeRelevant retrieve st m) = basePrompt) ∧
    (st.use_rag = false → st.pdf_context = some doc → doc ≠ [] →
      computeRelevant retrieve st m = doc.take 5000 ∧
      createSystemPrompt st (computeRelevant retrieve st m)
        = basePrompt ++ relevantHeader ++ doc.take 5000) ∧
    (st.use_rag = false → st.pdf_context = some doc → doc ≠ [] →
      createSystemPrompt st []
        = basePrompt ++ previewHeader ++ doc.take 4000
          ++ (if 4000 < doc.length then truncNote else [])) := by
  refine ⟨?_, ?_, ?_⟩
  · intro hrag hret
    simp [computeRelevant, createSystemPrompt, hrag, hret]
  · intro hrag hpc hne
    have htruthy : pyTruthyOpt (some doc) = true := by
      simpa [pyTruthyOpt, List.isEmpty_iff] using hne
    have hrel : computeRelevant retrieve st m = doc.take 5000 := by
      simp [computeRelevant, hrag, hpc, htruthy]
    refine ⟨hrel, ?_⟩
    rw [hrel]
    have hne5 : ¬(doc.take 5000).isEmpty := by
      simp only [List.isEmpty_iff, List.take_eq_nil_iff]
      rintro (h | h)
      · omega
      · exact hne h
    unfold createSystemPrompt
    rw [if_pos (by simpa using hne5)]
  · intro hrag hpc hne
    have htruthy : pyTruthyOpt (some doc) = true := by
      simpa [pyTruthyOpt, List.isEmpty_iff] using hne
    by_cases hlen : 4000 < doc.length <;>
      simp [createSystemPrompt, htruthy, hrag, hpc, hlen]

/-- Witness for `createSystemPrompt_preview`: concrete states exercising
the bare-prompt branch, the 5000-cap branch and the 4000-preview branch
(with the truncation notice absent for a short document). -/
theorem createSystemPrompt_preview_witness :
    createSystemPrompt ⟨some ("dd").toList, true, none⟩
        (computeRelevant (fun _ => []) ⟨some ("dd").toList, true, none⟩
          ("q").toList) = basePrompt ∧
    createSystemPrompt ⟨some ("dd").toList, false, none⟩
        (computeRelevant (fun _ => []) ⟨some ("dd").toList, false, none⟩
          ("q").toList)
      = basePrompt ++ relevantHeader ++ ("dd").toList ∧
    createSystemPrompt ⟨some ("dd").toList, false, none⟩ []
      = basePrompt ++ previewHeader ++ ("dd").toList := by
  refine ⟨?_, ?_, ?_⟩
  · exact (createSystemPrompt_preview (fun _ => [])
      ⟨some ("dd").toList, true, none⟩ ("dd").toList ("q").toList).1 rfl rfl
  · have h := (createSystemPrompt_preview (fun _ => [])
      ⟨some ("dd").toList, false, none⟩ ("dd").toList ("q").toList).2.1 rfl rfl
      (by decide)
    exact h.2
  · have h := (createSystemPrompt_preview (fun _ => [])
      ⟨some ("dd").toList, false, none⟩ ("dd").toList ("q").toList).2.2 rfl rfl
      (by decide)
    simpa using h

/-!  ### Idempotence of the normalizer (claim C6)

The development follows the pipeline of `_clean_text`: the whitespace
collapse leaves text in `WsNormal` form; stripping preserves that form;
and on a stripped `WsNormal` string produced by the pipeline every stage
acts as the identity. -/

theorem collapseWsGo_space_char (l : List Char) :
    ∀ b, ∀ c ∈ collapseWsGo l b, pySpace c = true → c = ' ' := by
  induction l with
  | nil => intro b c hc; simp [collapseWsGo] at hc
  | cons a l ih =>
    intro b c hc hsp
    by_cases ha : pySpace a
    · rw [collapseWsGo, if_pos ha] at hc
      cases b with
      | true => exact ih true c hc hsp
      | false =>
        rcases List.mem_cons.mp hc with rfl | hc
        · rfl
        · exact ih true c hc hsp
    · rw [collapseWsGo, if_neg ha] at hc
      rcases List.mem_cons.mp hc with rfl | hc
      · exact absurd hsp (by simp [ha])
      · exact ih false c hc hsp

theorem collapseWsGo_true_head (l : List Char) :
    ∀ c cs, collapseWsGo l true = c :: cs → pySpace c = false := by
  induction l with
  | nil => intro c cs h; simp [collapseWsGo] at h
  | cons a l ih =>
    intro c cs h
    by_cases ha : pySpace a
    · rw [collapseWsGo, if_pos ha] at h
      exact ih c cs h
    · rw [collapseWsGo, if_neg ha] at h
      cases h
      simpa using ha

theorem collapseWsGo_chain (l : List Char) :
    ∀ b, List.Chain' (fun a d : Char => ¬(pySpace a = true ∧ pySpace d = true))
      (collapseWsGo l b) := by
  induction l with
  | nil => intro b; simp [collapseWsGo]
  | cons a l ih =>
    intro b
    by_cases ha : pySpace a
    · rw [collapseWsGo, if_pos ha]
      cases b with
      | true => exact ih true
      | false =>
        show List.Chain' _ (' ' :: collapseWsGo l true)
        rw [List.chain'_cons']
        refine ⟨?_, ih true⟩
        intro y hy
        cases hgo : collapseWsGo l true with
        | nil => rw [hgo] at hy; simp at hy
        | cons q qs =>
          rw [hgo] at hy
          simp only [List.head?_cons, Option.mem_def, Option.some.injEq] at hy
          subst hy
          simp [collapseWsGo_true_head l q qs hgo]
    · rw [collapseWsGo, if_neg ha]
      rw [List.chain'_cons']
      refine ⟨?_, ih false⟩
      intro y _
      simp [ha]

theorem collapseWsGo_true_eq_false (l : List Char)
    (h : ∀ c cs, l = c :: cs → pySpace c = false) :
    collapseWsGo l true = collapseWsGo l false := by
  cases l with
  | nil => rfl
  | cons a l =>
    have ha : pySpace a = false := h a l rfl
    rw [collapseWsGo, collapseWsGo, if_neg (by simp [ha]), if_neg (by simp [ha])]

theorem collapseWsGo_id (l : List Char) (hn : WsNormal l) :
    collapseWsGo l false = l := by
  induction l with
  | nil => rfl
  | cons a l ih =>
    have hntail : WsNormal l :=
      ⟨fun c hc => hn.1 c (List.mem_cons_of_mem a hc),
       List.Chain'.tail hn.2⟩
    by_cases ha : pySpace a
    · have ha' : a = ' ' := hn.1 a (List.mem_cons_self a l) ha
      rw [collapseWsGo, if_pos ha]
      have hhead : ∀ c cs, l = c :: cs → pySpace c = false := by
        intro c cs hl
        subst hl
        have := (List.chain'_cons.mp hn.2).1
        by_contra hcsp
        exact this ⟨ha, by simpa using hcsp⟩
      rw [collapseWsGo_true_eq_false l hhead, ih hntail, ha']
      rfl
    · rw [collapseWsGo, if_neg ha, ih hntail]

theorem dropTrailingWs_cons_of_neg (c : Char) (l : List Char)
    (hc : pySpace c = false) :
    dropTrailingWs (c :: l) = c :: dropTrailingWs l := by
  unfold dropTrailingWs
  rw [List.reverse_cons, List.dropWhile_append]
  split
  · rename_i hemp
    rw [List.isEmpty_iff] at hemp
    rw [hemp, List.dropWhile_cons_of_neg (by simp [hc])]
    simp
  · simp

theorem pyStrip_head (l : List Char) :
    ∀ c cs, pyStrip l = c :: cs → pySpace c = false := by
  intro c cs h
  unfold pyStrip at h
  cases hm : l.dropWhile pySpace with
  | nil => rw [hm] at h; simp [dropTrailingWs] at h
  | cons d m =>
    have hd : pySpace d = false := by
      have := List.head?_dropWhile_not pySpace l
      rw [hm] at this
      simpa using this
    rw [hm, dropTrailingWs_cons_of_neg d m hd] at h
    cases h
    exact hd

theorem pyStrip_reverse_head (l : List Char) :
    ∀ c cs, (pyStrip l).reverse = c :: cs → pySpace c = false := by
  intro c cs h
  unfold pyStrip dropTrailingWs at h
  rw [List.reverse_reverse] at h
  have := List.head?_dropWhile_not pySpace (l.dropWhile pySpace).reverse
  rw [h] at this
  simpa using this

theorem pyStrip_eq_self (l : List Char)
    (h1 : ∀ c cs, l = c :: cs → pySpace c = false)
    (h2 : ∀ c cs, l.reverse = c :: cs → pySpace c = false) :
    pyStrip l = l := by
  have hdrop : l.dropWhile pySpace = l := by
    cases l with
    | nil => rfl
    | cons a l => exact List.dropWhile_cons_of_neg (by simp [h1 a l rfl])
  have hrev : l.reverse.dropWhile pySpace = l.reverse := by
    cases hl : l.reverse with
    | nil => simp [hl]
    | cons a m =>
      exact List.dropWhile_cons_of_neg (by simp [h2 a m hl])
  unfold pyStrip dropTrailingWs
  rw [hdrop, hrev, List.reverse_reverse]

theorem pyStrip_decomp (l : List Char) :
    ∃ a b, l = a ++ pyStrip l ++ b ∧ (∀ c ∈ a, pySpace c = true) ∧
      (∀ c ∈ b, pySpace c = true) := by
  refine ⟨l.takeWhile pySpace,
    ((l.dropWhile pySpace).reverse.takeWhile pySpace).reverse, ?_, ?_, ?_⟩
  · unfold pyStrip dropTrailingWs
    conv =>
      lhs
      rw [← List.takeWhile_append_dropWhile pySpace l]
    rw [List.append_assoc]
    congr 1
    conv =>
      lhs
      rw [← List.reverse_reverse (l.dropWhile pySpace),
        ← List.takeWhile_append_dropWhile pySpace (l.dropWhile pySpace).reverse]
    rw [List.reverse_append]
  · intro c hc
    exact List.mem_takeWhile_imp hc
  · intro c hc
    rw [List.mem_reverse] at hc
    exact List.mem_takeWhile_imp hc

theorem pyStrip_within (l : List Char) : pyStrip l <:+: l := by
  rcases pyStrip_decomp l with ⟨a, b, hl, _, _⟩
  exact ⟨a, b, hl.symm⟩

theorem pyDigit_not_space (c : Char) (hd : pyDigit c = true) :
    pySpace c = false := by
  by_contra hs
  have hs' : pySpace c = true := by
    cases h : pySpace c
    · exact absurd h hs
    · rfl
  simp only [pySpace, Bool.or_eq_true, decide_eq_true_eq] at hs'
  rcases hs' with ((((h | h) | h) | h) | h) | h <;> subst h <;> revert hd <;>
    decide

theorem WsNormal_nil : WsNormal [] := ⟨by simp, by simp⟩

theorem WsNormal_infix {l l' : List Char} (hn : WsNormal l) (h : l' <:+: l) :
    WsNormal l' := by
  refine ⟨fun c hc => hn.1 c ?_, List.Chain'.infix hn.2 h⟩
  exact List.Sublist.subset (List.IsInfix.sublist h) hc

/-- The combined per-character effect of the two `replace` calls. -/
theorem gSpace (c : Char) : pySpace (fixZero (fixPipe c)) = pySpace c := by
  by_cases h1 : c = '|'
  · subst h1; decide
  by_cases h2 : c = '0'
  · subst h2; decide
  simp [fixPipe, fixZero, h1, h2]

theorem gDigit (c : Char) (hd : pyDigit (fixZero (fixPipe c)) = true) :
    fixZero (fixPipe c) = c := by
  by_cases h1 : c = '|'
  · subst h1; revert hd; decide
  by_cases h2 : c = '0'
  · subst h2; revert hd; decide
  simp [fixPipe, fixZero, h1, h2]

theorem gNotZeroPipe (c : Char) :
    fixZero (fixPipe c) ≠ '0' ∧ fixZero (fixPipe c) ≠ '|' := by
  by_cases h1 : c = '|'
  · subst h1; decide
  by_cases h2 : c = '0'
  · subst h2; decide
  simp only [fixPipe, fixZero, if_neg h1, if_neg h2]
  by_cases h3 : c = '0'
  · exact absurd h3 h2
  · simp [h3, h1]

theorem gSpaceChar : fixZero (fixPipe ' ') = ' ' := by decide

theorem WsNormal_map_g {l : List Char} (hn : WsNormal l) :
    WsNormal (l.map (fun c => fixZero (fixPipe c))) := by
  constructor
  · intro c hc hsp
    rcases List.mem_map.mp hc with ⟨d, hd, rfl⟩
    rw [gSpace] at hsp
    rw [hn.1 d hd hsp]
    exact gSpaceChar
  · rw [List.chain'_map]
    refine List.Chain'.imp ?_ hn.2
    intro a b h
    rw [gSpace, gSpace]
    exact h

theorem dropWhile_append_of_all {p : Char → Bool} :
    ∀ (a x : List Char), (∀ c ∈ a, p c = true) →
      List.dropWhile p (a ++ x) = List.dropWhile p x := by
  intro a
  induction a with
  | nil => intro x _; rfl
  | cons c a ih =>
    intro x hall
    rw [List.cons_append,
      List.dropWhile_cons_of_pos (hall c (List.mem_cons_self c a))]
    exact ih x (fun d hd => hall d (List.mem_cons_of_mem c hd))

theorem takeWhile_append_of_all {p : Char → Bool} :
    ∀ (r x : List Char), (∀ c ∈ r, p c = true) →
      List.takeWhile p (r ++ x) = r ++ List.takeWhile p x := by
  intro r
  induction r with
  | nil => intro x _; rfl
  | cons c r ih =>
    intro x hall
    rw [List.cons_append,
      List.takeWhile_cons_of_pos (hall c (List.mem_cons_self c r)),
      ih x (fun d hd => hall d (List.mem_cons_of_mem c hd)), List.cons_append]

/-- A string of the shape `spaces ++ digits ++ spaces` (digits non-empty)
matches `\s*\d+\s*`. -/
theorem matches_of_decomp (a r b : List Char)
    (ha : ∀ c ∈ a, pySpace c = true) (hr : ∀ c ∈ r, pyDigit c = true)
    (hrne : r ≠ []) (hb : ∀ c ∈ b, pySpace c = true) :
    matchesStandaloneNumber (a ++ r ++ b) = true := by
  have hdropb : List.takeWhile pyDigit b = [] := by
    cases b with
    | nil => rfl
    | cons c bs =>
      have : pyDigit c = false := by
        have hsp := hb c (List.mem_cons_self c bs)
        cases hdig : pyDigit c
        · rfl
        · rw [pyDigit_not_space c hdig] at hsp; cases hsp
      exact List.takeWhile_cons_of_neg (by simp [this])
  have hdropb' : List.dropWhile pyDigit b = b := by
    cases b with
    | nil => rfl
    | cons c bs =>
      have : pyDigit c = false := by
        have hsp := hb c (List.mem_cons_self c bs)
        cases hdig : pyDigit c
        · rfl
        · rw [pyDigit_not_space c hdig] at hsp; cases hsp
      exact List.dropWhile_cons_of_neg (by simp [this])
  have hstep1 : List.dropWhile pySpace (a ++ r ++ b) = r ++ b := by
    rw [List.append_assoc, dropWhile_append_of_all a (r ++ b) ha]
    cases r with
    | nil => exact absurd rfl hrne
    | cons d r' =>
      rw [List.cons_append]
      exact List.dropWhile_cons_of_neg
        (by simp [pyDigit_not_space d (hr d (List.mem_cons_self d r'))])
  simp only [matchesStandaloneNumber, hstep1]
  rw [takeWhile_append_of_all r b hr, hdropb, List.append_nil,
    dropWhile_append_of_all r b hr, hdropb', Bool.and_eq_true]
  constructor
  · cases r with
    | nil => exact absurd rfl hrne
    | cons d r' => simp
  · rw [List.all_eq_true]
    exact hb

/-- A stripped string that matches `\s*\d+\s*` is a non-empty string of
digits. -/
theorem all_digits_of_matches (l : List Char)
    (h1 : ∀ c cs, l = c :: cs → pySpace c = false)
    (h2 : ∀ c cs, l.reverse = c :: cs → pySpace c = false)
    (hm : matchesStandaloneNumber l = true) :
    l ≠ [] ∧ ∀ c ∈ l, pyDigit c = true := by
  have hdrop : l.dropWhile pySpace = l := by
    cases l with
    | nil => rfl
    | cons a m => exact List.dropWhile_cons_of_neg (by simp [h1 a m rfl])
  simp only [matchesStandaloneNumber, hdrop, Bool.and_eq_true] at hm
  obtain ⟨hne, hall⟩ := hm
  have hlne : l ≠ [] := by
    intro hl; subst hl; simp at hne
  refine ⟨hlne, ?_⟩
  cases hrest : List.dropWhile pyDigit l with
  | nil =>
    have hfull : List.takeWhile pyDigit l = l := by
      conv_rhs => rw [← List.takeWhile_append_dropWhile pyDigit l]
      rw [hrest, List.append_nil]
    intro c hc
    exact List.mem_takeWhile_imp (hfull.symm ▸ hc)
  | cons z rest' =>
    exfalso
    rcases List.dropWhile_suffix pyDigit (l := l) with ⟨pre, hpre⟩
    rw [hrest] at hpre
    have hallsp : ∀ c ∈ (z :: rest'), pySpace c = true := by
      rw [List.all_eq_true] at hall
      intro c hc
      exact hall c (hrest ▸ hc)
    cases hrev : (z :: rest').reverse with
    | nil =>
      have : (z :: rest').reverse ≠ [] := by simp
      exact this hrev
    | cons y ys =>
      have hy : y ∈ z :: rest' := by
        rw [← List.mem_reverse, hrev]
        exact List.mem_cons_self y ys
      have hysp : pySpace y = true := hallsp y hy
      have hlr : l.reverse = y :: (ys ++ pre.reverse) := by
        rw [← hpre, List.reverse_append, hrev, List.cons_append]
      rw [h2 y (ys ++ pre.reverse) hlr] at hysp
      cases hysp

/-- Digits pass through the character-repair map unchanged, so a map
image that is all digits forces the source to be that very string. -/
theorem map_g_eq_digits :
    ∀ (r₀ r : List Char), r₀.map (fun c => fixZero (fixPipe c)) = r →
      (∀ c ∈ r, pyDigit c = true) → r₀ = r := by
  intro r₀
  induction r₀ with
  | nil =>
    intro r h _
    simpa using h
  | cons c cs ih =>
    intro r h hall
    cases r with
    | nil => simp at h
    | cons d ds =>
      rw [List.map_cons] at h
      have h1 : fixZero (fixPipe c) = d := (List.cons.injEq _ _ _ _ ▸ h).1
      have h2 : cs.map (fun c => fixZero (fixPipe c)) = ds :=
        (List.cons.injEq _ _ _ _ ▸ h).2
      have hd : pyDigit d = true := hall d (List.mem_cons_self d ds)
      have hgc : fixZero (fixPipe c) = c := gDigit c (h1 ▸ hd)
      rw [hgc] at h1
      rw [h1, ih ds h2 (fun e he => hall e (List.mem_cons_of_mem d he))]

/-- Any string enjoying the invariants that `_clean_text` establishes is
a fixed point of `_clean_text`. -/
theorem cleanText_eq_self (r : List Char)
    (hnr : WsNormal r)
    (hh : ∀ c cs, r = c :: cs → pySpace c = false)
    (hhr : ∀ c cs, r.reverse = c :: cs → pySpace c = false)
    (hnm : matchesStandaloneNumber r = false)
    (hchar : ∀ c ∈ r, c ≠ '0' ∧ c ≠ '|') :
    cleanText r = r := by
  have e1 : collapseWs r = r := collapseWsGo_id r hnr
  have e2 : removeStandaloneNumbers r = r := by
    unfold removeStandaloneNumbers
    rw [hnm]
    simp
  have e3 : (r.map fixPipe).map fixZero = r := by
    have h1 : r.map fixPipe = r := by
      have : r.map fixPipe = r.map id :=
        List.map_congr_left (fun c hc => by simp [fixPipe, (hchar c hc).2])
      rw [this, List.map_id]
    rw [h1]
    have : r.map fixZero = r.map id :=
      List.map_congr_left (fun c hc => by simp [fixZero, (hchar c hc).1])
    rw [this, List.map_id]
  have e4 : pyStrip r = r := pyStrip_eq_self r hh hhr
  show pyStrip (((removeStandaloneNumbers (collapseWs r)).map fixPipe).map
    fixZero) = r
  rw [e1, e2, e3, e4]

/-- **C6**: `_clean_text` is idempotent. -/
theorem cleanText_idempotent (x : List Char) :
    cleanText (cleanText x) = cleanText x := by
  have hucomp : ((removeStandaloneNumbers (collapseWs x)).map fixPipe).map
      fixZero = (removeStandaloneNumbers (collapseWs x)).map
        (fun c => fixZero (fixPipe c)) := by
    rw [List.map_map]
    rfl
  have hr : cleanText x
      = pyStrip ((removeStandaloneNumbers (collapseWs x)).map
          (fun c => fixZero (fixPipe c))) := by
    show pyStrip (((removeStandaloneNumbers (collapseWs x)).map fixPipe).map
      fixZero) = _
    rw [hucomp]
  have hn1 : WsNormal (collapseWs x) :=
    ⟨fun c hc => collapseWsGo_space_char x false c hc, collapseWsGo_chain x false⟩
  have hn2 : WsNormal (removeStandaloneNumbers (collapseWs x)) := by
    unfold removeStandaloneNumbers
    split
    · exact WsNormal_nil
    · exact hn1
  have hnu : WsNormal ((removeStandaloneNumbers (collapseWs x)).map
      (fun c => fixZero (fixPipe c))) := WsNormal_map_g hn2
  have hnr : WsNormal (cleanText x) := by
    rw [hr]
    exact WsNormal_infix hnu (pyStrip_within _)
  have hh : ∀ c cs, cleanText x = c :: cs → pySpace c = false := by
    rw [hr]; exact pyStrip_head _
  have hhr : ∀ c cs, (cleanText x).reverse = c :: cs → pySpace c = false := by
    rw [hr]; exact pyStrip_reverse_head _
  have hchar : ∀ c ∈ cleanText x, c ≠ '0' ∧ c ≠ '|' := by
    intro c hc
    rw [hr] at hc
    have hcu := List.Sublist.subset (List.IsInfix.sublist (pyStrip_within _)) hc
    rcases List.mem_map.mp hcu with ⟨d, _, rfl⟩
    exact gNotZeroPipe d
  have hnm : matchesStandaloneNumber (cleanText x) = false := by
    cases hm : matchesStandaloneNumber (cleanText x) with
    | false => rfl
    | true =>
      exfalso
      obtain ⟨hrne, hrdig⟩ := all_digits_of_matches (cleanText x) hh hhr hm
      obtain ⟨a, b, hlu, hasp, hbsp⟩ :=
        pyStrip_decomp ((removeStandaloneNumbers (collapseWs x)).map
          (fun c => fixZero (fixPipe c)))
      rw [← hr] at hlu
      rw [List.append_assoc] at hlu
      rcases List.map_eq_append_iff.mp hlu with ⟨a₀, rb, ht2eq, hma, hmrb⟩
      rcases List.map_eq_append_iff.mp hmrb with ⟨r₀, b₀, hrbeq, hmr, hmb⟩
      have hr₀ : r₀ = cleanText x := map_g_eq_digits r₀ (cleanText x) hmr hrdig
      have ha₀ : ∀ c ∈ a₀, pySpace c = true := by
        intro c hc
        have := hasp (fixZero (fixPipe c)) (hma ▸ List.mem_map_of_mem _ hc)
        rwa [gSpace] at this
      have hb₀ : ∀ c ∈ b₀, pySpace c = true := by
        intro c hc
        have := hbsp (fixZero (fixPipe c)) (hmb ▸ List.mem_map_of_mem _ hc)
        rwa [gSpace] at this
      have ht2form : removeStandaloneNumbers (collapseWs x)
          = a₀ ++ cleanText x ++ b₀ := by
        rw [ht2eq, hrbeq, hr₀, List.append_assoc]
      have hmatch2 : matchesStandaloneNumber
          (removeStandaloneNumbers (collapseWs x)) = true := by
        rw [ht2form]
        exact matches_of_decomp a₀ (cleanText x) b₀ ha₀ hrdig hrne hb₀
      by_cases hm1 : matchesStandaloneNumber (collapseWs x) = true
      · have hnil : removeStandaloneNumbers (collapseWs x) = [] := by
          unfold removeStandaloneNumbers
          rw [hm1]
          simp
        rw [hnil] at ht2form
        have : cleanText x = [] := by
          rcases List.append_eq_nil.mp ht2form.symm with ⟨hab, _⟩
          exact (List.append_eq_nil.mp hab).2
        exact hrne this
      · have hkeep : removeStandaloneNumbers (collapseWs x) = collapseWs x := by
          unfold removeStandaloneNumbers
          rw [Bool.of_not_eq_true hm1]
          simp
        rw [hkeep] at hmatch2
        exact hm1 hmatch2
  exact cleanText_eq_self (cleanText x) hnr hh hhr hnm hchar

end Beacon
